import Mathlib

/-!
Verification of the `nmc` node_modules cleaner (src/main.rs).

Shallow embedding notes:
* Filesystem paths are modelled as lists of path segments (`List String`);
  the Rust program's working-directory root `.` is the empty list.
* The directory tree walked by Discovery is modelled by the inductive
  `FsEntry` (file or directory with named children); the child list order
  models the traversal order produced by the `walkdir` crate, which is
  unspecified.
* The deletion task `delete_project` is a pure function of the candidate
  path and the outcomes the filesystem gives to its two fallible calls
  (`canonicalize`, `remove_dir_all`), plus whether the channel receiver is
  still alive (an `async_channel` send fails only once every receiver has
  been dropped).  A `.unwrap()` panic in the Rust code is modelled by the
  `Option TaskPanic` component of the result.
* `buffer_unordered(8)` is modelled by a step relation on a pool state with
  a queued / in-flight / finished partition; a task may start only while
  fewer than the bound are in flight.
-/

/-- Per-candidate status, as in the Rust `enum Status`. -/
inductive Status where
  | Waiting
  | Deleting
  | Failed
  | Done
deriving DecidableEq, Repr

/-- A status event, as in the Rust `struct StatusUpdate`. -/
structure StatusUpdate where
  path : List String
  status : Status
deriving DecidableEq, Repr

/-- A discovered candidate, as in the Rust `struct Project`. -/
structure Project where
  path : List String
  status : Status
deriving DecidableEq, Repr

/-- `Project::new` sets the initial status to `Waiting`. -/
def Project.new (path : List String) : Project :=
  { path := path, status := Status.Waiting }

/-- `Done` and `Failed` are the terminal statuses. -/
def isTerminal : Status → Bool
  | Status.Done => true
  | Status.Failed => true
  | _ => false

/-- Outcomes the filesystem gives to the two fallible calls made by one
deletion task: `path.canonicalize()` and `remove_dir_all`. -/
structure FsBehavior where
  canonOk : Bool
  removeOk : Bool
deriving DecidableEq, Repr

/-- The `.unwrap()` panics a deletion task can hit: a failed channel send,
or a failed `canonicalize`. -/
inductive TaskPanic where
  | sendFailed
  | canonFailed
deriving DecidableEq, Repr

/-- Embedding of `delete_project` (src/main.rs:156-184): send `Deleting`
(unwrap), canonicalize the path (unwrap), remove the directory, then send
`Done` on success or `Failed` on error (unwrap).  Returns the events that
were actually sent and the panic, if any, that stopped the task. -/
def delete_project (path : List String) (b : FsBehavior) (recvAlive : Bool) :
    List StatusUpdate × Option TaskPanic :=
  if recvAlive = false then
    ([], some TaskPanic.sendFailed)
  else if b.canonOk = false then
    ([⟨path, Status.Deleting⟩], some TaskPanic.canonFailed)
  else if b.removeOk then
    ([⟨path, Status.Deleting⟩, ⟨path, Status.Done⟩], none)
  else
    ([⟨path, Status.Deleting⟩, ⟨path, Status.Failed⟩], none)

/-- Result of the `buffer_unordered(8).collect().await` pool of
`delete_projects`: either every task ran to completion and produced its
event list, or some task panicked.  A panic unwinds through
`FuturesUnordered` and `collect`, dropping the in-flight sibling futures
(cancelling them mid-removal, losing their terminal events) and never
starting the queued ones; which events the cancelled siblings had already
sent depends on the scheduler and is deliberately not modelled. -/
inductive PoolResult where
  | completed : List (List String × List StatusUpdate) → PoolResult
  | panicked : TaskPanic → PoolResult
deriving DecidableEq, Repr

/-- Embedding of `delete_projects` (src/main.rs:145-154).  With the
receiver alive and every candidate's canonicalization succeeding, no task
panics and the pool completes with each candidate's full event list
(removal errors are absorbed into `Failed` events and never unwind).  If
the receiver were dead the first send's `.unwrap()` would panic; if any
candidate fails canonicalization, that task's `.unwrap()` panic tears the
whole pool down. -/
def delete_projects (cs : List (List String × FsBehavior)) (recvAlive : Bool) :
    PoolResult :=
  if recvAlive = false then
    if cs.isEmpty then PoolResult.completed []
    else PoolResult.panicked TaskPanic.sendFailed
  else if cs.all (fun c => (c.2).canonOk) then
    PoolResult.completed
      (cs.map (fun c => (c.1, (delete_project c.1 c.2 recvAlive).1)))
  else PoolResult.panicked TaskPanic.canonFailed

/-- The concurrency bound passed to `buffer_unordered` in `delete_projects`
(src/main.rs:151). -/
def DELETE_CONCURRENCY : Nat := 8

/-- State of the `buffer_unordered` pool: candidates not yet started, the
ones currently in flight, and the finished ones. -/
structure PoolState where
  queued : List (List String)
  inFlight : List (List String)
  finished : List (List String)
deriving DecidableEq, Repr

/-- One scheduler step of a `buffer_unordered(K)` pool: start the next
queued task while fewer than `K` are in flight, or finish an in-flight
task. -/
inductive PoolStep (K : Nat) : PoolState → PoolState → Prop
  | start (c : List String) (q infl fin : List (List String)) :
      infl.length < K →
      PoolStep K ⟨c :: q, infl, fin⟩ ⟨q, c :: infl, fin⟩
  | finish (c : List String) (q infl fin : List (List String)) :
      c ∈ infl →
      PoolStep K ⟨q, infl, fin⟩ ⟨q, infl.erase c, c :: fin⟩

/-- Reachability in the pool transition system. -/
def PoolReach (K : Nat) : PoolState → PoolState → Prop :=
  Relation.ReflTransGen (PoolStep K)

/-- Initial pool state: everything queued, nothing started. -/
def initPool (cs : List (List String)) : PoolState :=
  ⟨cs, [], []⟩

/-- A filesystem entry: a file, or a directory with an ordered list of
children (the order models the traversal order of the `walkdir` crate,
which is unspecified). -/
inductive FsEntry where
  | file : String → FsEntry
  | dir : String → List FsEntry → FsEntry

/-- The name of an entry. -/
def entryName : FsEntry → String
  | FsEntry.file n => n
  | FsEntry.dir n _ => n

/-- `project_dir.join(name).exists()`: the directory has a direct child
with the given name (of either kind — the Rust code checks `exists()`,
not `is_dir()`). -/
def hasChildNamed (name : String) (cs : List FsEntry) : Bool :=
  cs.any (fun e => entryName e == name)

/-- Embedding of the `walkdir` loop of `identify_projects`
(src/main.rs:72-97).  `visitEntries d pre all l` processes, in order, the
not-yet-visited children `l` of the directory at path `pre` whose full
child list is `all`, with `d` remaining depth levels below that directory
allowed by `max_depth`.  A file child named `package.json` yields `pre`
as a candidate when a `node_modules` child exists, and in every case stops
the scan of this directory (`walker.skip_current_dir()`); a directory
child is recursively walked with one less depth level before the scan
continues. -/
def visitEntries : Nat → List String → List FsEntry → List FsEntry →
    List (List String)
  | _, _, _, [] => []
  | 0, _, _, _ :: _ => []
  | d + 1, pre, all, FsEntry.file n :: rest =>
      if n = "package.json" then
        if hasChildNamed "node_modules" all then [pre] else []
      else visitEntries (d + 1) pre all rest
  | d + 1, pre, all, FsEntry.dir n cs :: rest =>
      visitEntries d (pre ++ [n]) cs cs ++ visitEntries (d + 1) pre all rest

/-- Embedding of `identify_projects` (src/main.rs:72-97): walk the tree
rooted at the working directory (path `[]`, children `root`) to depth
`depth` and wrap each found directory in a `Project` with status
`Waiting`. -/
def identify_projects (depth : Nat) (root : List FsEntry) : List Project :=
  (visitEntries depth [] root root).map Project.new

/-- Names of the direct children of a directory. -/
def namesOf (cs : List FsEntry) : List String := cs.map entryName

/-- Well-formedness of a directory tree, as every real filesystem
guarantees: no two children of one directory share a name, recursively. -/
def wfEntries : List FsEntry → Bool
  | [] => true
  | FsEntry.file n :: rest =>
      (!(namesOf rest).contains n) && wfEntries rest
  | FsEntry.dir n cs :: rest =>
      (!(namesOf rest).contains n) && wfEntries cs && wfEntries rest

/-- The children of the first directory child with the given name. -/
def findDir (n : String) : List FsEntry → Option (List FsEntry)
  | [] => none
  | FsEntry.file _ :: rest => findDir n rest
  | FsEntry.dir m cs :: rest => if m = n then some cs else findDir n rest

/-- Navigate a path of segments down the tree, returning the children of
the directory the path denotes. -/
def dirAt : List FsEntry → List String → Option (List FsEntry)
  | cs, [] => some cs
  | cs, n :: rel =>
      match findDir n cs with
      | some cs2 => dirAt cs2 rel
      | none => none

/-- A directory directly contains the manifest file `package.json` and an
entry named `node_modules`. -/
def containsManifestAndCache (cs : List FsEntry) : Bool :=
  (cs.any fun e =>
    match e with
    | FsEntry.file n => n == "package.json"
    | FsEntry.dir _ _ => false) &&
  hasChildNamed "node_modules" cs

/-- Children of the candidate directory `./a` in the documented Discovery
scenario: a manifest file, a cache directory, and a nested project
`sub` holding a manifest but no cache directory.  All six scan orders. -/
def aChildOrders : List (List FsEntry) :=
  [[FsEntry.file "package.json", FsEntry.dir "node_modules" [],
    FsEntry.dir "sub" [FsEntry.file "package.json"]],
   [FsEntry.file "package.json",
    FsEntry.dir "sub" [FsEntry.file "package.json"],
    FsEntry.dir "node_modules" []],
   [FsEntry.dir "node_modules" [], FsEntry.file "package.json",
    FsEntry.dir "sub" [FsEntry.file "package.json"]],
   [FsEntry.dir "node_modules" [],
    FsEntry.dir "sub" [FsEntry.file "package.json"],
    FsEntry.file "package.json"],
   [FsEntry.dir "sub" [FsEntry.file "package.json"],
    FsEntry.file "package.json", FsEntry.dir "node_modules" []],
   [FsEntry.dir "sub" [FsEntry.file "package.json"],
    FsEntry.dir "node_modules" [], FsEntry.file "package.json"]]

/-- The two scan orders of the scenario root, holding `./a` (with the
given child order) and `./b` with a manifest but no cache directory. -/
def scenarioRoots (aCh : List FsEntry) : List (List FsEntry) :=
  [[FsEntry.dir "a" aCh, FsEntry.dir "b" [FsEntry.file "package.json"]],
   [FsEntry.dir "b" [FsEntry.file "package.json"], FsEntry.dir "a" aCh]]

/-- The CLI arguments, as in the Rust `struct Arguments`. -/
structure Arguments where
  depth : Nat
  silent : Bool
  interactive : Bool
deriving DecidableEq, Repr

/-- The string `self.path.display()` produces for a candidate path: the
walkdir paths are rooted at `.`, so the root candidate renders as `"."`
and any deeper candidate as `"./seg1/…/segk"`. -/
def renderPath : List String → String
  | [] => "."
  | s :: rest => "./" ++ String.intercalate "/" (s :: rest)

/-- Embedding of `impl Display for Project` (src/main.rs:66-70):
`split_at(2).1` on the rendered path, which panics (`none`) when the
string is shorter than 2 characters. -/
def displayProject (p : List String) : Option String :=
  if 2 ≤ (renderPath p).length then some ((renderPath p).drop 2) else none

/-- Outcome of one program run.  `panicked` is the interactive-mode
display panic (before any deletion); `crashed` is a deletion-task panic
in silent mode, where the pool is awaited directly in `main` and the
unwind kills the process (abnormal exit); `exitedAfterPoolPanic` is a
deletion-task panic in non-silent mode, where the pool runs inside
`tokio::spawn`, the panic is contained by the spawned task, the channel
closes, the poller drains and returns, and the process exits cleanly with
whatever events had been sent (scheduler-dependent, not modelled). -/
inductive RunOutcome where
  | nothingFound
  | aborted
  | panicked
  | crashed : TaskPanic → RunOutcome
  | exitedAfterPoolPanic : TaskPanic → RunOutcome
  | completed : List (List String × List StatusUpdate) → RunOutcome
deriving DecidableEq, Repr

/-- The per-candidate deletion results of a run: the full per-candidate
event lists when the pool completed, nothing otherwise (a run that never
reached the pool deleted nothing; a run whose pool panicked has only
scheduler-dependent partial results, which are not modelled). -/
def deletionsOf : RunOutcome → List (List String × List StatusUpdate)
  | RunOutcome.completed rs => rs
  | _ => []

/-- All status events of a completed run. -/
def eventsOf (o : RunOutcome) : List StatusUpdate :=
  ((deletionsOf o).map (fun r => r.2)).flatten

/-- The deletion phase of `main` (src/main.rs:210-215): the pool always
runs with the receiver alive (`status_poller` holds it in non-silent
mode, `main`'s scope holds it in silent mode).  In silent mode
`delete_projects` is awaited in `main`, so a pool panic crashes the
process; in non-silent mode the pool runs in `tokio::spawn`, so its panic
is contained and the process still exits cleanly. -/
def runPool (silent : Bool) (cands : List Project)
    (beh : List String → FsBehavior) : RunOutcome :=
  match delete_projects (cands.map (fun pr => (pr.path, beh pr.path)))
      true with
  | PoolResult.completed rs => RunOutcome.completed rs
  | PoolResult.panicked reason =>
      if silent then RunOutcome.crashed reason
      else RunOutcome.exitedAfterPoolPanic reason

/-- Embedding of `main` (src/main.rs:186-216): discover candidates, exit
if none; in interactive mode render every candidate (which panics when
any display is too short) and ask for a selection, returning at once if
the user aborts; then run the deletion pool, whose panic handling depends
on the silent flag (see `runPool`). -/
def runMain (args : Arguments) (root : List FsEntry)
    (beh : List String → FsBehavior)
    (selection : Except Unit (List Project)) : RunOutcome :=
  let projects := identify_projects args.depth root
  if projects.isEmpty then RunOutcome.nothingFound
  else if args.interactive then
    if projects.any (fun pr => (displayProject pr.path).isNone) then
      RunOutcome.panicked
    else
      match selection with
      | Except.error _ => RunOutcome.aborted
      | Except.ok sel => runPool args.silent sel beh
  else runPool args.silent projects beh

/-- C6 helper: a candidate found while visiting the children of the
directory at `pre` with `d` levels allowed below it lies at most `d - 1`
segments below `pre` (its manifest file at most `d`). -/
theorem visitEntries_depth_le :
    ∀ (d : Nat) (pre : List String) (all l : List FsEntry)
      (q : List String), q ∈ visitEntries d pre all l →
      q.length + 1 ≤ pre.length + d := by
  intro d
  induction d using Nat.strong_induction_on with
  | _ d ih =>
    intro pre all l
    induction l with
    | nil => intro q hq; cases d <;> simp [visitEntries] at hq
    | cons e rest ihl =>
      intro q hq
      match d, e with
      | 0, _ => simp [visitEntries] at hq
      | d' + 1, FsEntry.file n =>
          by_cases hn : n = "package.json"
          · simp only [visitEntries, if_pos hn] at hq
            by_cases hm : hasChildNamed "node_modules" all
            · simp [hm] at hq
              subst hq
              omega
            · simp [hm] at hq
          · simp only [visitEntries, if_neg hn] at hq
            exact ihl q hq
      | d' + 1, FsEntry.dir n cs =>
          simp only [visitEntries, List.mem_append] at hq
          rcases hq with hq | hq
          · have h := ih d' (by omega) (pre ++ [n]) cs cs q hq
            simp only [List.length_append, List.length_cons,
              List.length_nil] at h
            omega
          · exact ihl q hq

/-- C6: the depth bound of Discovery is exact: with maximum depth `D`, a
returned candidate's manifest file lies at most `D` path segments below
the root, and with depth `0` only the root itself is inspected, so no
candidate is returned at all. -/
theorem c6_depth_bound :
    (∀ (D : Nat) (root : List FsEntry) (pr : Project),
        pr ∈ identify_projects D root → pr.path.length + 1 ≤ D) ∧
    (∀ root : List FsEntry, identify_projects 0 root = []) := by
  constructor
  · intro D root pr hpr
    simp only [identify_projects, List.mem_map] at hpr
    obtain ⟨q, hq, rfl⟩ := hpr
    have h := visitEntries_depth_le D [] root root q hq
    simpa [Project.new] using h
  · intro root
    cases root <;> simp [identify_projects, visitEntries]

/-- Witness for C6: on the tree `./a/package.json`, `./a/node_modules`,
Discovery at depth 2 returns the candidate `./a`, whose manifest is at
depth 2 ≤ 2; at depth 0 it returns nothing. -/
theorem c6_witness :
    (Project.new ["a"]).path.length + 1 ≤ 2 ∧
    identify_projects 0
      [FsEntry.dir "a" [FsEntry.file "package.json",
        FsEntry.dir "node_modules" []]] = [] := by
  constructor
  · exact c6_depth_bound.1 2
      [FsEntry.dir "a" [FsEntry.file "package.json",
        FsEntry.dir "node_modules" []]]
      (Project.new ["a"])
      (by simp [identify_projects, visitEntries, hasChildNamed, entryName])
  · exact c6_depth_bound.2 _

/-- Destructure well-formedness at a file child. -/
theorem wf_cons_file {n : String} {rest : List FsEntry}
    (h : wfEntries (FsEntry.file n :: rest) = true) :
    n ∉ namesOf rest ∧ wfEntries rest = true := by
  simpa [wfEntries] using h

/-- Destructure well-formedness at a directory child. -/
theorem wf_cons_dir {n : String} {cs rest : List FsEntry}
    (h : wfEntries (FsEntry.dir n cs :: rest) = true) :
    n ∉ namesOf rest ∧ wfEntries cs = true ∧ wfEntries rest = true := by
  have h2 := h
  simp [wfEntries] at h2
  exact ⟨h2.1.1, h2.1.2, h2.2⟩

/-- In a well-formed tree, the children of a directory child are
well-formed. -/
theorem wfEntries_of_mem_dir {all : List FsEntry} {n : String}
    {cs : List FsEntry} (hwf : wfEntries all = true)
    (hmem : FsEntry.dir n cs ∈ all) : wfEntries cs = true := by
  induction all with
  | nil => cases hmem
  | cons e rest ih =>
      rcases List.mem_cons.mp hmem with heq | hmem2
      · subst heq
        exact (wf_cons_dir hwf).2.1
      · cases e with
        | file m => exact ih (wf_cons_file hwf).2 hmem2
        | dir m cs2 => exact ih (wf_cons_dir hwf).2.2 hmem2

/-- In a well-formed tree, `findDir` finds exactly the children of the
unique directory child with a given name. -/
theorem findDir_eq_of_mem {all : List FsEntry} {n : String}
    {cs : List FsEntry} (hwf : wfEntries all = true)
    (hmem : FsEntry.dir n cs ∈ all) : findDir n all = some cs := by
  induction all with
  | nil => cases hmem
  | cons e rest ih =>
      rcases List.mem_cons.mp hmem with heq | hmem2
      · subst heq
        simp [findDir]
      · cases e with
        | file m =>
            simpa [findDir] using ih (wf_cons_file hwf).2 hmem2
        | dir m cs2 =>
            have hwd := wf_cons_dir hwf
            have hne : m ≠ n := by
              intro heq2
              subst heq2
              exact hwd.1 (List.mem_map.mpr ⟨FsEntry.dir m cs, hmem2, rfl⟩)
            simpa [findDir, hne] using ih hwd.2.2 hmem2

/-- C4 soundness lemma: every candidate found while scanning the remaining
children `l` of a well-formed directory with full child list `all` is a
directory of that subtree that directly contains the manifest file and a
`node_modules` entry. -/
theorem visitEntries_sound :
    ∀ (d : Nat) (pre : List String) (all l : List FsEntry),
      wfEntries all = true → l.Sublist all →
      ∀ q ∈ visitEntries d pre all l,
        ∃ rel cs2, q = pre ++ rel ∧ dirAt all rel = some cs2 ∧
          containsManifestAndCache cs2 = true := by
  intro d
  induction d using Nat.strong_induction_on with
  | _ d ih =>
    intro pre all l hwf hsub
    induction l with
    | nil => intro q hq; cases d <;> simp [visitEntries] at hq
    | cons e rest ihl =>
      have hsubr : rest.Sublist all :=
        List.Sublist.trans (List.sublist_cons_self e rest) hsub
      intro q hq
      match d, e with
      | 0, _ => simp [visitEntries] at hq
      | d' + 1, FsEntry.file n =>
          by_cases hn : n = "package.json"
          · subst hn
            simp only [visitEntries, if_pos rfl] at hq
            by_cases hm : hasChildNamed "node_modules" all
            · simp [hm] at hq
              subst hq
              refine ⟨[], all, by simp, by simp [dirAt], ?_⟩
              simp only [containsManifestAndCache, Bool.and_eq_true]
              refine ⟨?_, hm⟩
              simp only [List.any_eq_true]
              exact ⟨FsEntry.file "package.json",
                hsub.subset (List.mem_cons_self _ _), by simp⟩
            · simp [hm] at hq
          · simp only [visitEntries, if_neg hn] at hq
            exact ihl hsubr q hq
      | d' + 1, FsEntry.dir n cs =>
          simp only [visitEntries, List.mem_append] at hq
          have hmem : FsEntry.dir n cs ∈ all :=
            hsub.subset (List.mem_cons_self _ _)
          rcases hq with hq | hq
          · have hwfcs : wfEntries cs = true := wfEntries_of_mem_dir hwf hmem
            obtain ⟨rel, cs2, hqeq, hnav, hcmc⟩ :=
              ih d' (by omega) (pre ++ [n]) cs cs hwfcs
                (List.Sublist.refl cs) q hq
            refine ⟨n :: rel, cs2, by simp [hqeq], ?_, hcmc⟩
            simp [dirAt, findDir_eq_of_mem hwf hmem, hnav]
          · exact ihl hsubr q hq

/-- C4 (amended): Discovery is sound — on a well-formed tree every
returned candidate has status `Waiting` and denotes a directory that
directly contains the manifest file `package.json` and an entry named
`node_modules`; in particular a directory with a manifest but no
`node_modules` entry is never returned.  (The result need not be exactly
the set of such directories: qualifying directories inside a pruned
subtree are omitted.) -/
theorem c4_discovery_sound (d : Nat) (root : List FsEntry)
    (hwf : wfEntries root = true) (pr : Project)
    (hpr : pr ∈ identify_projects d root) :
    pr.status = Status.Waiting ∧
    ∃ cs2, dirAt root pr.path = some cs2 ∧
      containsManifestAndCache cs2 = true := by
  simp only [identify_projects, List.mem_map] at hpr
  obtain ⟨q, hq, rfl⟩ := hpr
  obtain ⟨rel, cs2, hqeq, hnav, hcmc⟩ :=
    visitEntries_sound d [] root root hwf (List.Sublist.refl root) q hq
  refine ⟨rfl, cs2, ?_, hcmc⟩
  have hpath : (Project.new q).path = rel := by
    simp [Project.new, hqeq]
  rw [hpath]
  exact hnav

/-- Witness for C4: on the tree `./a/package.json`, `./a/node_modules`,
the returned candidate `./a` is `Waiting` and its directory contains both
required entries. -/
theorem c4_witness :
    (Project.new ["a"]).status = Status.Waiting ∧
    ∃ cs2, dirAt
        [FsEntry.dir "a" [FsEntry.file "package.json",
          FsEntry.dir "node_modules" []]] ["a"] = some cs2 ∧
      containsManifestAndCache cs2 = true :=
  c4_discovery_sound 2
    [FsEntry.dir "a" [FsEntry.file "package.json",
      FsEntry.dir "node_modules" []]]
    (by simp [wfEntries, namesOf, entryName])
    (Project.new ["a"])
    (by simp [identify_projects, visitEntries, hasChildNamed, entryName])

/-- C4 counterexample: on a tree where both `./a` and `./a/sub` directly
contain `package.json` and `node_modules` and the manifest of `a` is
scanned first, Discovery returns only `./a` — the qualifying directory
`./a/sub` is pruned away — so Discovery does not return exactly the set of
directories containing both entries. -/
theorem c4_counterexample :
    identify_projects 3
        [FsEntry.dir "a" [FsEntry.file "package.json",
          FsEntry.dir "node_modules" [],
          FsEntry.dir "sub" [FsEntry.file "package.json",
            FsEntry.dir "node_modules" []]]] = [Project.new ["a"]] ∧
    (∃ cs2, dirAt
        [FsEntry.dir "a" [FsEntry.file "package.json",
          FsEntry.dir "node_modules" [],
          FsEntry.dir "sub" [FsEntry.file "package.json",
            FsEntry.dir "node_modules" []]]] ["a", "sub"] = some cs2 ∧
      containsManifestAndCache cs2 = true) ∧
    Project.new ["a", "sub"] ∉ identify_projects 3
        [FsEntry.dir "a" [FsEntry.file "package.json",
          FsEntry.dir "node_modules" [],
          FsEntry.dir "sub" [FsEntry.file "package.json",
            FsEntry.dir "node_modules" []]]] := by
  refine ⟨?_, ⟨[FsEntry.file "package.json", FsEntry.dir "node_modules" []],
    ?_, ?_⟩, ?_⟩
  · simp [identify_projects, visitEntries, hasChildNamed, entryName]
  · simp [dirAt, findDir]
  · simp [containsManifestAndCache, hasChildNamed, entryName]
  · simp [identify_projects, visitEntries, hasChildNamed, entryName,
      Project.new]

/-- C3 shape lemma: every candidate found while scanning the remaining
children `l` of the directory at `pre` is either `pre` itself or lies
below a directory child of `l`, and no candidate found earlier is a path
prefix of one found later — once a directory has been matched, the walk
skips the rest of its subtree, so nothing beneath it is ever returned
afterwards. -/
theorem visitEntries_shape_pairwise :
    ∀ (d : Nat) (pre : List String) (all l : List FsEntry),
      wfEntries l = true →
      (∀ q ∈ visitEntries d pre all l,
          q = pre ∨ ∃ n rel, q = pre ++ n :: rel ∧ n ∈ namesOf l) ∧
      List.Pairwise (fun x y => ¬ x <+: y) (visitEntries d pre all l) := by
  intro d
  induction d using Nat.strong_induction_on with
  | _ d ih =>
    intro pre all l
    induction l with
    | nil =>
        intro _
        cases d <;> simp [visitEntries]
    | cons e rest ihl =>
      intro hwf
      match d, e with
      | 0, _ => simp [visitEntries]
      | d' + 1, FsEntry.file n =>
          have hwr := (wf_cons_file hwf).2
          by_cases hn : n = "package.json"
          · constructor
            · intro q hq
              simp only [visitEntries, if_pos hn] at hq
              by_cases hm : hasChildNamed "node_modules" all
              · simp [hm] at hq
                exact Or.inl hq
              · simp [hm] at hq
            · simp only [visitEntries, if_pos hn]
              by_cases hm : hasChildNamed "node_modules" all
              · simp [hm]
              · simp [hm]
          · simp only [visitEntries, if_neg hn]
            refine ⟨?_, (ihl hwr).2⟩
            intro q hq
            rcases (ihl hwr).1 q hq with hq2 | ⟨m, rel, hq2, hm2⟩
            · exact Or.inl hq2
            · exact Or.inr ⟨m, rel, hq2, by
                simp only [namesOf, entryName, List.map_cons]
                exact List.mem_cons_of_mem _ hm2⟩
      | d' + 1, FsEntry.dir n cs =>
          obtain ⟨hnmem, hwcs, hwrest⟩ := wf_cons_dir hwf
          have ihd := ih d' (by omega) (pre ++ [n]) cs cs hwcs
          have ihr := ihl hwrest
          simp only [visitEntries]
          constructor
          · intro q hq
            rcases List.mem_append.mp hq with hq2 | hq2
            · rcases ihd.1 q hq2 with hq3 | ⟨m, rel, hq3, _⟩
              · refine Or.inr ⟨n, [], ?_, ?_⟩
                · simp [hq3]
                · simp [namesOf, entryName]
              · refine Or.inr ⟨n, m :: rel, ?_, ?_⟩
                · simp [hq3, List.append_assoc]
                · simp [namesOf, entryName]
            · rcases ihr.1 q hq2 with hq3 | ⟨m, rel, hq3, hm3⟩
              · exact Or.inl hq3
              · exact Or.inr ⟨m, rel, hq3, by
                  simp only [namesOf, entryName, List.map_cons]
                  exact List.mem_cons_of_mem _ hm3⟩
          · refine List.pairwise_append.mpr ⟨ihd.2, ihr.2, ?_⟩
            intro x hx y hy hpref
            have hxshape : ∃ xr, x = pre ++ n :: xr := by
              rcases ihd.1 x hx with hx2 | ⟨m, rel, hx2, _⟩
              · exact ⟨[], by simp [hx2]⟩
              · exact ⟨m :: rel, by simp [hx2, List.append_assoc]⟩
            obtain ⟨xr, rfl⟩ := hxshape
            rcases ihr.1 y hy with hy2 | ⟨m, yr, hy2, hm2⟩
            · subst hy2
              have := hpref.length_le
              simp at this
            · subst hy2
              have hsuf : n :: xr <+: m :: yr :=
                (List.prefix_append_right_inj pre).mp hpref
              have hnm : n = m := (List.cons_prefix_cons.mp hsuf).1
              subst hnm
              exact hnmem hm2

/-- C3: (1) on any well-formed tree, Discovery never returns a candidate
nested beneath (or equal to) an already-returned candidate — once a
manifest is found in a directory the walk skips the rest of that subtree;
(2) in the documented scenario (`/a/package.json` + `/a/node_modules`,
`/b/package.json` without a cache dir, `/a/sub/package.json` nested under
`/a`), for every traversal order and every depth `D ≥ 3`, Discovery
returns exactly the candidate `./a`. -/
theorem c3_no_nested_candidates :
    (∀ (d : Nat) (root : List FsEntry), wfEntries root = true →
        List.Pairwise (fun x y => ¬ x <+: y)
          ((identify_projects d root).map Project.path)) ∧
    (∀ (D : Nat), 3 ≤ D → ∀ aCh ∈ aChildOrders, ∀ root ∈ scenarioRoots aCh,
        identify_projects D root = [Project.new ["a"]]) := by
  constructor
  · intro d root hwf
    have hcomp : Project.path ∘ Project.new = id := rfl
    have hmap : (identify_projects d root).map Project.path =
        visitEntries d [] root root := by
      simp [identify_projects, List.map_map, hcomp]
    rw [hmap]
    exact (visitEntries_shape_pairwise d [] root root hwf).2
  · intro D hD aCh hA root hR
    obtain ⟨k, rfl⟩ : ∃ k, D = k + 3 := ⟨D - 3, by omega⟩
    simp only [aChildOrders, List.mem_cons, List.not_mem_nil, or_false]
      at hA
    simp only [scenarioRoots, List.mem_cons, List.not_mem_nil, or_false]
      at hR
    rcases hA with rfl | rfl | rfl | rfl | rfl | rfl <;>
      rcases hR with rfl | rfl <;>
      simp [identify_projects, visitEntries, hasChildNamed, entryName,
        Project.new]

/-- Witness for C3: both parts applied to the concrete scenario tree with
the first traversal order at depth 3. -/
theorem c3_witness :
    List.Pairwise (fun x y => ¬ x <+: y)
      ((identify_projects 3
          [FsEntry.dir "a" [FsEntry.file "package.json",
            FsEntry.dir "node_modules" [],
            FsEntry.dir "sub" [FsEntry.file "package.json"]],
           FsEntry.dir "b" [FsEntry.file "package.json"]]).map
        Project.path) ∧
    identify_projects 3
        [FsEntry.dir "a" [FsEntry.file "package.json",
          FsEntry.dir "node_modules" [],
          FsEntry.dir "sub" [FsEntry.file "package.json"]],
         FsEntry.dir "b" [FsEntry.file "package.json"]] =
      [Project.new ["a"]] := by
  constructor
  · exact c3_no_nested_candidates.1 3 _
      (by simp [wfEntries, namesOf, entryName])
  · exact c3_no_nested_candidates.2 3 (by omega)
      [FsEntry.file "package.json", FsEntry.dir "node_modules" [],
       FsEntry.dir "sub" [FsEntry.file "package.json"]]
      (by simp [aChildOrders]) _ (by simp [scenarioRoots])

/-- A nonempty list is not `isEmpty`. -/
theorem isEmpty_false_of_ne_nil {α : Type} {l : List α} (h : l ≠ []) :
    l.isEmpty = false := by
  cases l with
  | nil => exact absurd rfl h
  | cons a t => rfl

/-- Pool-completion helper: with the receiver alive and every pooled
candidate's canonicalization succeeding, no task panics, so
`buffer_unordered` runs every task to completion and the pool result
holds each candidate's full event list. -/
theorem delete_projects_completed_of_canonOk
    (cs : List (List String × FsBehavior))
    (hall : ∀ c ∈ cs, (c.2).canonOk = true) :
    delete_projects cs true =
      PoolResult.completed
        (cs.map (fun c => (c.1, (delete_project c.1 c.2 true).1))) := by
  have h : cs.all (fun c => (c.2).canonOk) = true :=
    List.all_eq_true.mpr hall
  simp [delete_projects, h]

/-- The event list a non-panicking task contributes to the pool:
`Deleting` then the terminal decided by the removal outcome. -/
theorem delete_project_events_of_canonOk (p : List String) (b : FsBehavior)
    (hc : b.canonOk = true) :
    (delete_project p b true).1 =
      [⟨p, Status.Deleting⟩,
       ⟨p, if b.removeOk then Status.Done else Status.Failed⟩] := by
  cases hr : b.removeOk <;> simp [delete_project, hc, hr]

/-- C1 (amended): when every candidate submitted to the Deletion pool
canonicalizes successfully, no task panics, the pool runs to completion,
and each candidate's event list is exactly one `Deleting` followed by
exactly one terminal event (`Done` iff its removal succeeded) — never
zero, never duplicated, never out of order. -/
theorem c1_deleting_then_terminal (cs : List (List String × FsBehavior))
    (hall : ∀ c ∈ cs, (c.2).canonOk = true)
    (p : List String) (b : FsBehavior) (hmem : (p, b) ∈ cs) :
    delete_projects cs true =
      PoolResult.completed
        (cs.map (fun c => (c.1, (delete_project c.1 c.2 true).1))) ∧
    (p, [⟨p, Status.Deleting⟩,
         ⟨p, if b.removeOk then Status.Done else Status.Failed⟩]) ∈
      cs.map (fun c => (c.1, (delete_project c.1 c.2 true).1)) ∧
    ([⟨p, Status.Deleting⟩,
      ⟨p, if b.removeOk then Status.Done else Status.Failed⟩] :
        List StatusUpdate).countP
      (fun u => u.status = Status.Deleting) = 1 ∧
    ([⟨p, Status.Deleting⟩,
      ⟨p, if b.removeOk then Status.Done else Status.Failed⟩] :
        List StatusUpdate).countP
      (fun u => isTerminal u.status) = 1 := by
  have hc : b.canonOk = true := hall (p, b) hmem
  refine ⟨delete_projects_completed_of_canonOk cs hall, ?_, ?_, ?_⟩
  · exact List.mem_map.mpr ⟨(p, b), hmem, by
      rw [delete_project_events_of_canonOk p b hc]⟩
  · cases hr : b.removeOk <;> simp [hr, List.countP_cons, isTerminal]
  · cases hr : b.removeOk <;> simp [hr, List.countP_cons, isTerminal]

/-- Witness for C1: a one-candidate pool whose canonicalization and
removal succeed completes with exactly `Deleting` then `Done`. -/
theorem c1_witness :
    delete_projects [(["a"], ⟨true, true⟩)] true =
      PoolResult.completed
        [(["a"], [⟨["a"], Status.Deleting⟩, ⟨["a"], Status.Done⟩])] ∧
    (["a"], [⟨["a"], Status.Deleting⟩, ⟨["a"], Status.Done⟩]) ∈
      ([(["a"], [⟨["a"], Status.Deleting⟩, ⟨["a"], Status.Done⟩])] :
        List (List String × List StatusUpdate)) := by
  have h := c1_deleting_then_terminal [(["a"], ⟨true, true⟩)]
    (by intro c hc; simp at hc; rw [hc]) ["a"] ⟨true, true⟩
    (List.mem_cons_self _ _)
  refine ⟨?_, ?_⟩
  · simpa [delete_project] using h.1
  · exact h.2.1

/-- C1 counterexample: a pool containing a candidate whose
canonicalization fails never completes — the task panics after its
`Deleting` event, emitting zero terminal events, and the unwind tears the
pool down — so "exactly one terminal event follows" is false as
stated. -/
theorem c1_counterexample :
    delete_projects [(["a"], ⟨false, true⟩)] true =
      PoolResult.panicked TaskPanic.canonFailed ∧
    (delete_project ["a"] ⟨false, true⟩ true).1.countP
        (fun u => isTerminal u.status) = 0 ∧
    (delete_project ["a"] ⟨false, true⟩ true).1.countP
        (fun u => u.status = Status.Deleting) = 1 ∧
    (delete_project ["a"] ⟨false, true⟩ true).2 =
      some TaskPanic.canonFailed := by
  refine ⟨?_, ?_, ?_, rfl⟩ <;>
    simp [delete_projects, delete_project, isTerminal]

/-- C2: evaluating the deletion task at a candidate whose path cannot be
canonicalized: the code panics (`canonicalize().unwrap()`,
src/main.rs:164) after the `Deleting` event and never emits the `Failed`
event the spec requires. -/
theorem c2_canonicalize_failure_panics :
    delete_project ["b"] ⟨false, false⟩ true =
      ([⟨["b"], Status.Deleting⟩], some TaskPanic.canonFailed) ∧
    (delete_project ["b"] ⟨false, false⟩ true).1.countP
        (fun u => u.status = Status.Failed) = 0 := by
  refine ⟨rfl, ?_⟩
  simp [delete_project]

/-- C5: in the `buffer_unordered(K)` pool model, every state reachable
from the initial state has at most `K` tasks in flight; `delete_projects`
instantiates `K` with `DELETE_CONCURRENCY = 8`. -/
theorem c5_concurrency_bound (K : Nat) (cs : List (List String))
    (s : PoolState) (h : PoolReach K (initPool cs) s) :
    s.inFlight.length ≤ K ∧ DELETE_CONCURRENCY = 8 := by
  refine ⟨?_, rfl⟩
  induction h with
  | refl => simp [initPool]
  | tail _ hstep ih =>
      cases hstep with
      | start c q infl fin hlt => simpa using hlt
      | finish c q infl fin hmem =>
          exact le_trans ((infl.erase_sublist c).length_le) ih

/-- Witness for C5: the initial pool state over one candidate is reachable
(in zero steps) and respects the bound. -/
theorem c5_witness :
    (initPool [["a"]]).inFlight.length ≤ DELETE_CONCURRENCY ∧
    DELETE_CONCURRENCY = 8 :=
  c5_concurrency_bound DELETE_CONCURRENCY [["a"]] (initPool [["a"]])
    Relation.ReflTransGen.refl

/-- C7: a removal error never panics and never unwinds, so — in a pool
where every candidate canonicalizes, i.e. no task hits the separate
canonicalization panic of C2, which is the only way one task can abort
its siblings — the pool still runs to completion: the failing candidate's
task emits exactly `Deleting` then `Failed` (no retry, the underlying
error is not propagated), and every other candidate still completes
normally with its own `Deleting`-then-terminal pair. -/
theorem c7_removal_failure_isolated (cs : List (List String × FsBehavior))
    (p : List String) (b : FsBehavior) (hmem : (p, b) ∈ cs)
    (hr : b.removeOk = false)
    (hall : ∀ c ∈ cs, (c.2).canonOk = true) :
    delete_projects cs true =
      PoolResult.completed
        (cs.map (fun c => (c.1, (delete_project c.1 c.2 true).1))) ∧
    (p, [⟨p, Status.Deleting⟩, ⟨p, Status.Failed⟩]) ∈
      cs.map (fun c => (c.1, (delete_project c.1 c.2 true).1)) ∧
    ∀ q b2, (q, b2) ∈ cs →
      (q, [⟨q, Status.Deleting⟩,
           ⟨q, if b2.removeOk then Status.Done else Status.Failed⟩]) ∈
        cs.map (fun c => (c.1, (delete_project c.1 c.2 true).1)) := by
  have hc : b.canonOk = true := hall (p, b) hmem
  refine ⟨delete_projects_completed_of_canonOk cs hall, ?_, ?_⟩
  · refine List.mem_map.mpr ⟨(p, b), hmem, ?_⟩
    rw [delete_project_events_of_canonOk p b hc]
    simp [hr]
  · intro q b2 hq
    refine List.mem_map.mpr ⟨(q, b2), hq, ?_⟩
    rw [delete_project_events_of_canonOk q b2 (hall (q, b2) hq)]

/-- Witness for C7: a pool with `./a` failing removal and `./b`
succeeding completes, yielding `Deleting, Failed` for `a` and
`Deleting, Done` for `b`. -/
theorem c7_witness :
    delete_projects [(["a"], ⟨true, false⟩), (["b"], ⟨true, true⟩)]
        true =
      PoolResult.completed
        [(["a"], [⟨["a"], Status.Deleting⟩, ⟨["a"], Status.Failed⟩]),
         (["b"], [⟨["b"], Status.Deleting⟩, ⟨["b"], Status.Done⟩])] ∧
    (["b"], [⟨["b"], Status.Deleting⟩, ⟨["b"], Status.Done⟩]) ∈
      ([(["a"], [⟨["a"], Status.Deleting⟩, ⟨["a"], Status.Failed⟩]),
        (["b"], [⟨["b"], Status.Deleting⟩, ⟨["b"], Status.Done⟩])] :
        List (List String × List StatusUpdate)) := by
  have h := c7_removal_failure_isolated
    [(["a"], ⟨true, false⟩), (["b"], ⟨true, true⟩)]
    ["a"] ⟨true, false⟩ (List.mem_cons_self _ _) rfl
    (by intro c hc; rcases List.mem_cons.mp hc with rfl | hc2
        · rfl
        · rcases List.mem_cons.mp hc2 with rfl | hc3
          · rfl
          · cases hc3)
  refine ⟨?_, ?_⟩
  · simpa [delete_project] using h.1
  · exact h.2.2 ["b"] ⟨true, true⟩
      (List.mem_cons_of_mem _ (List.mem_cons_self _ _))

/-- C8 (amended): the receiver endpoint is alive for the whole run in
both modes, so no status-event send ever fails (task-level, for any
behavior); when every pooled candidate canonicalizes, the pool completes
with every candidate's `Deleting`-then-terminal pair, and the whole run
outcome is identical with and without the silent flag — the unread event
stream never influences deletion outcomes.  (Without that proviso the
modes differ: a deletion-task panic crashes the process in silent mode
but is contained by the spawned task in non-silent mode; see the
counterexample.) -/
theorem c8_silent_mode :
    (∀ (p : List String) (b : FsBehavior),
        (delete_project p b true).2 ≠ some TaskPanic.sendFailed) ∧
    (∀ cs : List (List String × FsBehavior),
        (∀ c ∈ cs, (c.2).canonOk = true) →
        delete_projects cs true =
          PoolResult.completed
            (cs.map (fun c => (c.1, (delete_project c.1 c.2 true).1))) ∧
        ∀ q b2, (q, b2) ∈ cs →
          (q, [⟨q, Status.Deleting⟩,
               ⟨q, if b2.removeOk then Status.Done
                   else Status.Failed⟩]) ∈
            cs.map (fun c => (c.1, (delete_project c.1 c.2 true).1))) ∧
    (∀ (args : Arguments) (root : List FsEntry)
        (beh : List String → FsBehavior)
        (sel : Except Unit (List Project)),
        (∀ p, (beh p).canonOk = true) →
        runMain ⟨args.depth, true, args.interactive⟩ root beh sel =
          runMain ⟨args.depth, false, args.interactive⟩ root beh sel) := by
  refine ⟨?_, ?_, ?_⟩
  · intro p b
    cases hc : b.canonOk <;> cases hb : b.removeOk <;>
      simp [delete_project, hc, hb]
  · intro cs hall
    refine ⟨delete_projects_completed_of_canonOk cs hall, ?_⟩
    intro q b2 hq
    refine List.mem_map.mpr ⟨(q, b2), hq, ?_⟩
    rw [delete_project_events_of_canonOk q b2 (hall (q, b2) hq)]
  · intro args root beh sel hbeh
    have hrp : ∀ cands : List Project,
        runPool true cands beh = runPool false cands beh := by
      intro cands
      have h := delete_projects_completed_of_canonOk
        (cands.map (fun pr => (pr.path, beh pr.path)))
        (by intro c hc
            obtain ⟨pr, _, rfl⟩ := List.mem_map.mp hc
            exact hbeh pr.path)
      simp [runPool, h]
    cases h1 : (identify_projects args.depth root).isEmpty with
    | true => simp [runMain, h1]
    | false =>
      cases h2 : args.interactive with
      | false => simp [runMain, h1, h2, hrp]
      | true =>
        cases h3 : (identify_projects args.depth root).any
            (fun pr => (displayProject pr.path).isNone) with
        | true => simp [runMain, h1, h2, h3]
        | false =>
          cases sel with
          | error e => simp [runMain, h1, h2, h3]
          | ok s => simp [runMain, h1, h2, h3, hrp]

/-- Witness for C8: with a single canonicalizing candidate, the send
never fails, the pool completes, and the silent flag does not change the
run outcome. -/
theorem c8_witness :
    (delete_project ["a"] ⟨true, true⟩ true).2 ≠
      some TaskPanic.sendFailed ∧
    delete_projects [(["a"], ⟨true, true⟩)] true =
      PoolResult.completed
        [(["a"], [⟨["a"], Status.Deleting⟩, ⟨["a"], Status.Done⟩])] ∧
    runMain ⟨2, true, false⟩
        [FsEntry.dir "a" [FsEntry.file "package.json",
          FsEntry.dir "node_modules" []]]
        (fun _ => ⟨true, true⟩) (Except.error ()) =
      runMain ⟨2, false, false⟩
        [FsEntry.dir "a" [FsEntry.file "package.json",
          FsEntry.dir "node_modules" []]]
        (fun _ => ⟨true, true⟩) (Except.error ()) := by
  refine ⟨c8_silent_mode.1 ["a"] ⟨true, true⟩, ?_, ?_⟩
  · have h := (c8_silent_mode.2.1 [(["a"], ⟨true, true⟩)]
      (by intro c hc; simp at hc; rw [hc])).1
    simpa [delete_project] using h
  · exact c8_silent_mode.2.2 ⟨2, true, false⟩ _ _ _ (fun _ => rfl)

/-- C8 counterexample: with a candidate whose path cannot be
canonicalized, the silent run crashes the process (the pool panic unwinds
through `main`'s await) while the non-silent run exits cleanly (the panic
is contained by the spawned task) — so "deletion still runs to
completion for every candidate" is false as stated, and the two modes do
not even produce the same outcome: the candidate got its `Deleting` event
but zero terminal events. -/
theorem c8_counterexample :
    runMain ⟨1, true, false⟩
        [FsEntry.file "package.json", FsEntry.dir "node_modules" []]
        (fun _ => ⟨false, false⟩) (Except.error ()) =
      RunOutcome.crashed TaskPanic.canonFailed ∧
    runMain ⟨1, false, false⟩
        [FsEntry.file "package.json", FsEntry.dir "node_modules" []]
        (fun _ => ⟨false, false⟩) (Except.error ()) =
      RunOutcome.exitedAfterPoolPanic TaskPanic.canonFailed ∧
    RunOutcome.crashed TaskPanic.canonFailed ≠
      RunOutcome.exitedAfterPoolPanic TaskPanic.canonFailed ∧
    (delete_project [] ⟨false, false⟩ true).1.countP
        (fun u => isTerminal u.status) = 0 ∧
    (delete_project [] ⟨false, false⟩ true).1.countP
        (fun u => u.status = Status.Deleting) = 1 := by
  refine ⟨?_, ?_, by simp, ?_, ?_⟩ <;>
    simp [runMain, runPool, identify_projects, visitEntries,
      hasChildNamed, entryName, delete_projects, delete_project,
      isTerminal, Project.new]

/-- C9: in interactive mode, when every candidate renders without
panicking and the user aborts the selection prompt, the process exits at
once with outcome `aborted`: no deletion results exist and no status
events were sent. -/
theorem c9_interactive_abort (args : Arguments) (root : List FsEntry)
    (beh : List String → FsBehavior)
    (hi : args.interactive = true)
    (hne : identify_projects args.depth root ≠ [])
    (hdisp : ∀ pr ∈ identify_projects args.depth root,
        (displayProject pr.path).isSome = true) :
    runMain args root beh (Except.error ()) = RunOutcome.aborted ∧
    deletionsOf (runMain args root beh (Except.error ())) = [] ∧
    eventsOf (runMain args root beh (Except.error ())) = [] := by
  have h1 : (identify_projects args.depth root).isEmpty = false :=
    isEmpty_false_of_ne_nil hne
  have h2 : (identify_projects args.depth root).any
      (fun pr => (displayProject pr.path).isNone) = false := by
    by_contra hcon
    rw [Bool.not_eq_false, List.any_eq_true] at hcon
    obtain ⟨pr, hpr, hnone⟩ := hcon
    have hs := hdisp pr hpr
    cases hopt : displayProject pr.path <;> simp [hopt] at hnone hs
  have hrun : runMain args root beh (Except.error ()) =
      RunOutcome.aborted := by
    simp [runMain, h1, h2, hi]
  exact ⟨hrun, by simp [hrun, deletionsOf], by simp [hrun, eventsOf,
    deletionsOf]⟩

/-- Witness for C9: aborting the prompt on the one-candidate tree `./a`
leaves nothing deleted and no events sent. -/
theorem c9_witness :
    runMain ⟨2, false, true⟩
        [FsEntry.dir "a" [FsEntry.file "package.json",
          FsEntry.dir "node_modules" []]]
        (fun _ => ⟨true, true⟩) (Except.error ()) =
      RunOutcome.aborted ∧
    deletionsOf (runMain ⟨2, false, true⟩
        [FsEntry.dir "a" [FsEntry.file "package.json",
          FsEntry.dir "node_modules" []]]
        (fun _ => ⟨true, true⟩) (Except.error ())) = [] ∧
    eventsOf (runMain ⟨2, false, true⟩
        [FsEntry.dir "a" [FsEntry.file "package.json",
          FsEntry.dir "node_modules" []]]
        (fun _ => ⟨true, true⟩) (Except.error ())) = [] := by
  refine c9_interactive_abort ⟨2, false, true⟩ _ _ rfl ?_ ?_
  · simp [identify_projects, visitEntries, hasChildNamed, entryName]
  · intro pr hpr
    simp [identify_projects, visitEntries, hasChildNamed, entryName]
      at hpr
    rw [hpr]
    rfl

/-- C10: the `Display` implementation splits the rendered path at index 2
unconditionally, so it panics whenever that string is shorter than 2 —
in particular for a project at the root directory itself, rendered `"."`
— and since interactive mode formats every candidate, a run whose
candidate list contains the root project panics before performing any
deletion. -/
theorem c10_display_split_panics :
    (∀ p : List String, (renderPath p).length < 2 →
        displayProject p = none) ∧
    renderPath [] = "." ∧
    displayProject ([] : List String) = none ∧
    (∀ (args : Arguments) (root : List FsEntry)
        (beh : List String → FsBehavior)
        (sel : Except Unit (List Project)),
        args.interactive = true →
        Project.new [] ∈ identify_projects args.depth root →
        runMain args root beh sel = RunOutcome.panicked ∧
        deletionsOf (runMain args root beh sel) = []) := by
  refine ⟨?_, rfl, rfl, ?_⟩
  · intro p h
    rw [displayProject, if_neg (by omega)]
  · intro args root beh sel hi hmem
    have h1 : (identify_projects args.depth root).isEmpty = false :=
      isEmpty_false_of_ne_nil (List.ne_nil_of_mem hmem)
    have h2 : (identify_projects args.depth root).any
        (fun pr => (displayProject pr.path).isNone) = true :=
      List.any_eq_true.mpr ⟨Project.new [], hmem, by
        simp [Project.new, displayProject, renderPath]
        decide⟩
    have hrun : runMain args root beh sel = RunOutcome.panicked := by
      simp [runMain, h1, h2, hi]
    exact ⟨hrun, by simp [hrun, deletionsOf]⟩

/-- Witness for C10: a manifest plus cache directory at the working
directory itself makes Discovery return the root candidate, whose display
panics, and the interactive run performs no deletion. -/
theorem c10_witness :
    displayProject ([] : List String) = none ∧
    runMain ⟨1, false, true⟩
        [FsEntry.file "package.json", FsEntry.dir "node_modules" []]
        (fun _ => ⟨true, true⟩) (Except.error ()) =
      RunOutcome.panicked ∧
    deletionsOf (runMain ⟨1, false, true⟩
        [FsEntry.file "package.json", FsEntry.dir "node_modules" []]
        (fun _ => ⟨true, true⟩) (Except.error ())) = [] := by
  refine ⟨c10_display_split_panics.1 []
    (by simp only [renderPath]; decide), ?_, ?_⟩
  · exact (c10_display_split_panics.2.2.2 ⟨1, false, true⟩
      [FsEntry.file "package.json", FsEntry.dir "node_modules" []]
      (fun _ => ⟨true, true⟩) (Except.error ()) rfl
      (by simp [identify_projects, visitEntries, hasChildNamed,
        entryName])).1
  · exact (c10_display_split_panics.2.2.2 ⟨1, false, true⟩
      [FsEntry.file "package.json", FsEntry.dir "node_modules" []]
      (fun _ => ⟨true, true⟩) (Except.error ()) rfl
      (by simp [identify_projects, visitEntries, hasChildNamed,
        entryName])).2
